import Mathlib

/-! A simple Unix shell: tokenizer, expression builder, quote fix and executor.

A shallow embedding of `src/shell.cpp`.  A C++ `std::string` is a list of
characters, a `std::vector` is a list; `size_t` arithmetic that can wrap is
written with an explicit `% 2 ^ 64`.
-/

namespace Shell

/-- A `std::string`. -/
abbrev Str := List Char

/-- The structure `Command` of the source: the token group of one stage. -/
structure Command where
  parts : List Str := []
deriving DecidableEq

/-- The structure `Expression` of the source. -/
structure Expression where
  commands : List Command := []
  inputFromFile : Str := []
  outputToFile : Str := []
  background : Bool := false
deriving DecidableEq

/-! ## `std::string` primitives -/

/-- `str.find(delimiter, pos)` on the characters from `pos` on: `rest` is the
string from index `pos`, and the answer is the absolute index, `none` for
`npos`. -/
def findFrom (delimiter : Char) : Str → Nat → Option Nat
  | [], _ => none
  | c :: rest, pos => if c = delimiter then some pos else findFrom delimiter rest (pos + 1)

/-- `str.find(delimiter, pos)`. -/
def find (str : Str) (delimiter : Char) (pos : Nat) : Option Nat :=
  findFrom delimiter (str.drop pos) pos

/-- `str.substr(pos, len)` for `pos <= str.length()`. -/
def substr (str : Str) (pos len : Nat) : Str :=
  (str.drop pos).take len

/-- `str.substr(pos)`. -/
def substrFrom (str : Str) (pos : Nat) : Str :=
  str.drop pos

/-! ## `split_string` -/

/-- The `for` loop of `split_string`, one iteration per unit of fuel; the loop
variable is `pos`, the vector built so far is `retval`. -/
def split_loop (str : Str) (delimiter : Char) : Nat → Nat → List Str → List Str
  | 0, _, retval => retval
  | fuel + 1, pos, retval =>
    if pos < str.length then
      match find str delimiter pos with
      | none => retval ++ [substrFrom str pos]
      | some found =>
        split_loop str delimiter fuel (found + 1)
          (if found ≠ pos then retval ++ [substr str pos (found - pos)] else retval)
    else retval

/-- The function `split_string`.  Every iteration moves `pos` forward, so
`str.length` iterations suffice (see `split_loop_fuel`). -/
def split_string (str : Str) (delimiter : Char) : List Str :=
  split_loop str delimiter str.length 0 []

/-! ## Strings made of tokens and runs of delimiters -/

/-- The string `d^k1 t1 d^k2 t2 ...` of the segments `(k, t)`: each token
behind its run of `k` delimiters. -/
def join_rest (d : Char) : List (Nat × Str) → Str
  | [] => []
  | kt :: rest => List.replicate kt.1 d ++ kt.2 ++ join_rest d rest

/-- The tokens joined by single delimiters. -/
def join_single (d : Char) : List Str → Str
  | [] => []
  | t :: ts => t ++ join_rest d (ts.map fun u => (1, u))


/-- A token in the sense of the grammar: non-empty, without a space and
without a pipe character. -/
abbrev Token (t : Str) : Prop := t ≠ [] ∧ ' ' ∉ t ∧ '|' ∉ t

/-! ## `parse_command_line` -/

/-- The token `&`. -/
def amp : Str := ['&']

/-- The token `>`. -/
def gt : Str := ['>']

/-- The token `<`. -/
def lt : Str := ['<']

/-- First `if` of the loop body of `parse_command_line`: on the last stage a
trailing `&` behind at least one other token sets `background` and is dropped
(`args.resize(args.size()-1)`). -/
def drop_background (size i : Nat) (st : Expression × List Str) : Expression × List Str :=
  if i = size - 1 ∧ st.2.length > 1 ∧ st.2[st.2.length - 1]? = some amp then
    ({ st.1 with background := true }, st.2.take (st.2.length - 1))
  else st

/-- Second `if` of the loop body: on the last stage, `>` as second-to-last of
more than two tokens makes the last token `outputToFile`; both are dropped. -/
def take_output (size i : Nat) (st : Expression × List Str) : Expression × List Str :=
  if i = size - 1 ∧ st.2.length > 2 ∧ st.2[st.2.length - 2]? = some gt then
    ({ st.1 with outputToFile := st.2.getD (st.2.length - 1) [] }, st.2.take (st.2.length - 2))
  else st

/-- Third `if` of the loop body: on stage 0, `<` as second-to-last of more than
two tokens makes the last token `inputFromFile`; both are dropped. -/
def take_input (i : Nat) (st : Expression × List Str) : Expression × List Str :=
  if i = 0 ∧ st.2.length > 2 ∧ st.2[st.2.length - 2]? = some lt then
    ({ st.1 with inputFromFile := st.2.getD (st.2.length - 1) [] }, st.2.take (st.2.length - 2))
  else st

/-- One iteration of the loop of `parse_command_line` for stage `i` of `size`,
whose text is `line`. -/
def parse_stage (size i : Nat) (line : Str) (expression : Expression) : Expression :=
  let st := take_input i (take_output size i (drop_background size i
    (expression, split_string line ' ')))
  { st.1 with commands := st.1.commands ++ [{ parts := st.2 }] }

/-- The loop of `parse_command_line` over the stages still to do, `i` being
the index of the first of them and `size` being `commands.size()`. -/
def parse_loop (size : Nat) : List Str → Nat → Expression → Expression
  | [], _, expression => expression
  | line :: rest, i, expression => parse_loop size rest (i + 1) (parse_stage size i line expression)

/-- The function `parse_command_line`. -/
def parse_command_line (commandLine : Str) : Expression :=
  let commands := split_string commandLine '|'
  parse_loop commands.length commands 0 {}

/-! ## `fix_grep_quotes` -/

/-- The token `grep`. -/
def grep : Str := ['g', 'r', 'e', 'p']

/-- The body of the inner loop of `fix_grep_quotes` for one argument: when
`front()` and `back()` are both a double quote the argument becomes
`substr(1, size() - 2)`, the length being computed in `size_t`.  The empty
argument, on which `front()` is not defined, is left as it is; the tokenizer
never produces one. -/
def fix_quoted (part : Str) : Str :=
  if part.head? = some '"' ∧ part.getLast? = some '"' then
    substr part 1 ((part.length + 2 ^ 64 - 2) % 2 ^ 64)
  else part

/-- The body of the outer loop of `fix_grep_quotes` for one command: the
arguments `j = 1 ..` of a command of more than one part whose part 0 is
`grep`. -/
def fix_grep_command (cmd : Command) : Command :=
  if cmd.parts.length > 1 ∧ cmd.parts[0]? = some grep then
    { parts := cmd.parts.take 1 ++ (cmd.parts.drop 1).map fix_quoted }
  else cmd

/-- The function `fix_grep_quotes`. -/
def fix_grep_quotes (expression : Expression) : Expression :=
  { expression with commands := expression.commands.map fix_grep_command }

/-! ## The operating system, as an oracle

The results of the system calls are not decided by the program; they are
given by an oracle.  A failing call yields the value it leaves in `errno`; a
call that succeeds leaves `errno` as it was. -/

/-- The value of `EINVAL`. -/
def EINVAL : Nat := 22

/-- The token `cd`. -/
def kw_cd : Str := ['c', 'd']

/-- The token `exit`. -/
def kw_exit : Str := ['e', 'x', 'i', 't']

/-- The token `~`. -/
def tilde : Str := ['~']

/-- What the system calls answer.  `pipe i fds` is the answer to the `pipe`
call of iteration `i` when `fds` are the open descriptors: an `errno`, or the
read and write end.  `fork i` is the answer the parent sees: an `errno` or the
child's pid.  `waitpid pid` tells whether the call returns, which it does
when the child exits: otherwise the caller stays blocked in it for ever.
`chdir cwd path` is the answer to `chdir(path)` in a process whose working
directory is `cwd`: an `errno`, or the working directory the path resolves to.
`execvp args` is `none` when the image was replaced, `openRead path` and
`openWrite path` are the descriptor `open` returns for reading and for
writing; `dup2 old new` and `close fd` are `none` on success. -/
structure Sys where
  home : Option Str
  chdir : Str → Str → Except Nat Str
  pipe : Nat → List Nat → Except Nat (Nat × Nat)
  fork : Nat → Except Nat Nat
  waitpid : Nat → Bool
  openRead : Str → Except Nat Nat
  openWrite : Str → Except Nat Nat
  dup2 : Nat → Nat → Option Nat
  close : Nat → Option Nat
  execvp : List Str → Option Nat

/-- A system call of the interpreter process, as recorded in its trace.  The
fork of a pipeline stage is recorded with what the child starts from: the
values of `previousFd` and `fd` and the descriptors open at that moment. -/
inductive Event where
  | pipe (readEnd writeEnd : Nat)
  | fork (stage pid previousFd : Nat) (fd : Nat × Nat) (inherited : List Nat)
  | fork_single (pid : Nat)
  | waitpid (pid : Nat)
  | close (fd : Nat)
  | chdir (path : Str)
deriving DecidableEq

/-- The state of the interpreter process: working directory, open descriptors
and the calls made so far. -/
structure Interp where
  cwd : Str
  openFds : List Nat
  trace : List Event
deriving DecidableEq

/-- How a piece of code run by some process ends: it returns a value, the
process calls `exit(status)`, an uncaught `std::out_of_range` of `vector::at`
ends the process, (in a child) `execvp` replaced the image, or the process
stays blocked in a `waitpid` that never returns. -/
inductive Outcome where
  | returned (rc : Nat)
  | exited (status : Nat)
  | out_of_range
  | image_replaced (args : List Str)
  | blocked
deriving DecidableEq

/-- The call `close(fd)` in the interpreter. -/
def Interp.close (st : Interp) (fd : Nat) : Interp :=
  { st with openFds := st.openFds.erase fd, trace := st.trace ++ [Event.close fd] }

/-! ## Built-ins -/

/-- The function `goto_home_directory`. -/
def goto_home_directory (sys : Sys) (st : Interp) : Interp :=
  match sys.home with
  | none => st
  | some homeDirectory =>
    match sys.chdir st.cwd homeDirectory with
    | .ok dir => { st with cwd := dir, trace := st.trace ++ [Event.chdir homeDirectory] }
    | .error _ => { st with trace := st.trace ++ [Event.chdir homeDirectory] }

/-- The function `handle_change_directory`; `none` is an uncaught
`std::out_of_range` from `commands.at(1)`. -/
def handle_change_directory (sys : Sys) (st : Interp) (commands : List Str) : Option Interp :=
  if commands.length < 2 then
    some (goto_home_directory sys st)
  else
    match commands[1]? with
    | none => none
    | some path =>
      if path = tilde then some (goto_home_directory sys st)
      else
        match sys.chdir st.cwd path with
        | .ok dir => some { st with cwd := dir, trace := st.trace ++ [Event.chdir path] }
        | .error _ => some { st with trace := st.trace ++ [Event.chdir path] }

/-! ## `process_pipeline`, the interpreter's side -/

/-- The local variables of `process_pipeline` together with the interpreter. -/
structure Pipeline where
  interp : Interp
  fd : Nat × Nat
  previousFd : Nat
deriving DecidableEq

/-- The `pipe(fd)` call at the head of an iteration, made when `i` is not
the last stage; the error is the `errno` that is returned. -/
def pipe_step (sys : Sys) (expSize i : Nat) (p : Pipeline) : Except Nat Pipeline :=
  if i ≠ expSize - 1 then
    match sys.pipe i p.interp.openFds with
    | .error e => .error e
    | .ok (r, w) =>
      .ok { p with
        fd := (r, w)
        interp := { p.interp with
          openFds := p.interp.openFds ++ [r, w]
          trace := p.interp.trace ++ [Event.pipe r w] } }
  else .ok p

/-- The call `fork()` of iteration `i` answered with `pid`: the child starts
with a copy of `previousFd`, of `fd` and of the descriptors open now. -/
def fork_step (i pid : Nat) (p : Pipeline) : Pipeline :=
  { p with interp := { p.interp with
    trace := p.interp.trace ++ [Event.fork i pid p.previousFd p.fd p.interp.openFds] } }

/-- The end of the parent branch, behind the `waitpid`: `previousFd` is
closed when it is not 0, and before the last stage the write end is closed and
the read end kept in `previousFd`. -/
def parent_close (expSize i : Nat) (p : Pipeline) : Pipeline :=
  let p1 : Pipeline :=
    if p.previousFd ≠ 0 then { p with interp := p.interp.close p.previousFd } else p
  if i < expSize - 1 then
    { p1 with interp := p1.interp.close p1.fd.2, previousFd := p1.fd.1 }
  else p1

/-- The parent branch of an iteration, after `fork` returned `pid`: in the
foreground the parent first waits for this child, and `none` says that it
waits for ever. -/
def parent_step (sys : Sys) (background : Bool) (expSize i pid : Nat) (p : Pipeline) :
    Option Pipeline :=
  if ¬ background then
    if sys.waitpid pid then
      some (parent_close expSize i
        { p with interp := { p.interp with trace := p.interp.trace ++ [Event.waitpid pid] } })
    else none
  else some (parent_close expSize i p)

/-- The loop of `process_pipeline` in the interpreter, `todo` iterations from
stage `i` on; the result is the value returned, `none` when the interpreter
stays blocked in `waitpid`, and the state left. -/
def pipeline_loop (sys : Sys) (background : Bool) (expSize : Nat) :
    Nat → Nat → Pipeline → Option Nat × Pipeline
  | 0, _, p => (some 0, p)
  | todo + 1, i, p =>
    match pipe_step sys expSize i p with
    | .error e => (some e, p)
    | .ok p1 =>
      match sys.fork i with
      | .error e => (some e, p1)
      | .ok pid =>
        match parent_step sys background expSize i pid (fork_step i pid p1) with
        | none => (none, fork_step i pid p1)
        | some p2 => pipeline_loop sys background expSize todo (i + 1) p2

/-- The function `process_pipeline` as the interpreter runs it; `fd` is the
content of the uninitialised array `fd`.  The number of stages is taken to
fit the `int` variable `expSize`. -/
def process_pipeline (sys : Sys) (st : Interp) (fd : Nat × Nat) (expression : Expression) :
    Option Nat × Pipeline :=
  pipeline_loop sys expression.background expression.commands.length
    expression.commands.length 0 { interp := st, fd := fd, previousFd := 0 }

/-! ## `process_pipeline`, the child's side -/

/-- The state of a child between `fork` and `execvp`: only `errno` matters
for what it passes to `exit`. -/
structure Child where
  errno : Nat
deriving DecidableEq

/-- A call whose result is not checked: a failure only sets `errno`. -/
def Child.call (c : Child) (result : Option Nat) : Child :=
  match result with
  | none => c
  | some e => { c with errno := e }

/-- The function `handle_input_redirection`: `Except.error status` is
`exit(status)`, the status being the `errno` of the failed call. -/
def handle_input_redirection (sys : Sys) (c : Child) (inputFile : Str) : Except Nat Child :=
  match sys.openRead inputFile with
  | .error e => .error e
  | .ok fdInput =>
    match sys.dup2 fdInput 0 with
    | some e => .error e
    | none => .ok (c.call (sys.close fdInput))

/-- The function `handle_output_redirection`. -/
def handle_output_redirection (sys : Sys) (c : Child) (outputFile : Str) : Except Nat Child :=
  match sys.openWrite outputFile with
  | .error e => .error e
  | .ok fdOutput =>
    match sys.dup2 fdOutput 1 with
    | some e => .error e
    | none => .ok (c.call (sys.close fdOutput))

/-- The function `execute_command` in a process with the given `errno`:
`none` when the image was replaced, else the value returned and the new
`errno`. -/
def execute_command (sys : Sys) (c : Child) (cmd : Command) : Option (Nat × Child) :=
  if cmd.parts.length = 0 then some (EINVAL, c)
  else
    match sys.execvp cmd.parts with
    | none => none
    | some e => some (e, { c with errno := e })

/-- The child branch (`pid == 0`) of iteration `i` of `process_pipeline`.
`Outcome.returned 0` stands for the child going on with the loop, which
takes `execute_command` returning 0. -/
def pipeline_child (sys : Sys) (expression : Expression) (i previousFd : Nat) (fd : Nat × Nat)
    (c : Child) : Outcome :=
  let expSize := expression.commands.length
  let c1 :=
    if previousFd ≠ 0 then (c.call (sys.dup2 previousFd 0)).call (sys.close previousFd) else c
  let c2 :=
    if i < expSize - 1 then
      ((c1.call (sys.dup2 fd.2 1)).call (sys.close fd.1)).call (sys.close fd.2)
    else c1
  match (if i = 0 ∧ expression.inputFromFile ≠ [] then
      handle_input_redirection sys c2 expression.inputFromFile else .ok c2) with
  | .error status => Outcome.exited status
  | .ok c3 =>
    match (if i = expSize - 1 ∧ expression.outputToFile ≠ [] then
        handle_output_redirection sys c3 expression.outputToFile else .ok c3) with
    | .error status => Outcome.exited status
    | .ok c4 =>
      match expression.commands[i]? with
      | none => Outcome.out_of_range
      | some cmd =>
        match cmd.parts[0]? with
        | none => Outcome.out_of_range
        | some name =>
          if name = kw_cd then Outcome.exited c4.errno
          else if name = kw_exit then Outcome.exited c4.errno
          else
            match execute_command sys c4 cmd with
            | none => Outcome.image_replaced cmd.parts
            | some (rc, c5) => if rc ≠ 0 then Outcome.exited c5.errno else Outcome.returned 0

/-! ## `execute_expression` and the shell loop, in the interpreter -/

/-- The function `execute_expression` as the interpreter process runs it (the
child of its `fork` is another process). -/
def execute_expression (sys : Sys) (st : Interp) (fd : Nat × Nat) (expression : Expression) :
    Outcome × Interp :=
  if expression.commands.length = 0 then (Outcome.returned EINVAL, st)
  else
    let expression := fix_grep_quotes expression
    if expression.commands.length > 1 then
      let r := process_pipeline sys st fd expression
      match r.1 with
      | some rc => (Outcome.returned rc, r.2.interp)
      | none => (Outcome.blocked, r.2.interp)
    else
      match expression.commands[0]? with
      | none => (Outcome.out_of_range, st)
      | some first =>
        let commands := first.parts
        match commands[0]? with
        | none => (Outcome.out_of_range, st)
        | some name =>
          if name = kw_exit then (Outcome.exited 0, st)
          else if name = kw_cd then
            match handle_change_directory sys st commands with
            | none => (Outcome.out_of_range, st)
            | some st1 => (Outcome.returned 0, st1)
          else
            match sys.fork 0 with
            | .error _ => (Outcome.returned 0, st)
            | .ok pid =>
              let st1 : Interp := { st with trace := st.trace ++ [Event.fork_single pid] }
              if ¬ expression.background then
                if sys.waitpid pid then
                  (Outcome.returned 0, { st1 with trace := st1.trace ++ [Event.waitpid pid] })
                else (Outcome.blocked, st1)
              else (Outcome.returned 0, st1)

/-- One iteration of the loop of `shell` on the line read. -/
def shell_step (sys : Sys) (st : Interp) (fd : Nat × Nat) (commandLine : Str) :
    Outcome × Interp :=
  execute_expression sys st fd (parse_command_line commandLine)

/-! ## The order of the calls a pipeline makes -/

/-- The lowest number from `n` on that is not in `fds`, looking at most at
`fuel + 1` candidates. -/
def lowest_free (fds : List Nat) : Nat → Nat → Nat
  | 0, n => n
  | fuel + 1, n => if n ∈ fds then lowest_free fds fuel (n + 1) else n

/-- A system in which every call succeeds: `pipe` returns the two lowest free
descriptors, `fork` returns pid `100 + i`, every child exits, and `chdir`
takes an absolute path as it is and puts a relative one behind the working
directory (`.` and `..` are not resolved). -/
def posix : Sys where
  home := some ['/']
  chdir := fun cwd path =>
    .ok (if path.head? = some '/' then path
      else if cwd.getLast? = some '/' then cwd ++ path else cwd ++ '/' :: path)
  waitpid := fun _ => true
  pipe := fun _ fds =>
    let r := lowest_free fds fds.length 0
    .ok (r, lowest_free (r :: fds) (fds.length + 1) 0)
  fork := fun i => .ok (100 + i)
  openRead := fun _ => .ok 3
  openWrite := fun _ => .ok 3
  dup2 := fun _ _ => none
  close := fun _ => none
  execvp := fun _ => none

/-- The interpreter at start-up: the three standard descriptors are open. -/
def start : Interp := { cwd := ['/'], openFds := [0, 1, 2], trace := [] }

/-! ## Facts about `split_string` -/

theorem findFrom_absent (d : Char) (s : Str) (pos : Nat) (h : d ∉ s) :
    findFrom d s pos = none := by
  induction s generalizing pos with
  | nil => rfl
  | cons c s ih =>
    have hc : c ≠ d := fun e => h (by simp [e])
    have hs : d ∉ s := fun e => h (by simp [e])
    simp [findFrom, hc, ih _ hs]

theorem findFrom_first (d : Char) (t r : Str) (pos : Nat) (h : d ∉ t) :
    findFrom d (t ++ d :: r) pos = some (pos + t.length) := by
  induction t generalizing pos with
  | nil => simp [findFrom]
  | cons c t ih =>
    have hc : c ≠ d := fun e => h (by simp [e])
    have ht : d ∉ t := fun e => h (by simp [e])
    simp [findFrom, hc, ih _ ht]
    omega

theorem first_occurrence (d : Char) (s : Str) (h : d ∈ s) :
    ∃ t r, s = t ++ d :: r ∧ d ∉ t := by
  induction s with
  | nil => simp at h
  | cons c s ih =>
    by_cases hc : c = d
    · exact ⟨[], s, by simp [hc], by simp⟩
    · have hs : d ∈ s := by
        rcases List.mem_cons.mp h with e | e
        · exact absurd e.symm hc
        · exact e
      obtain ⟨t, r, e, ht⟩ := ih hs
      refine ⟨c :: t, r, by simp [e], ?_⟩
      intro hm
      rcases List.mem_cons.mp hm with e1 | e1
      · exact hc e1.symm
      · exact ht e1

/-- The fuel of `split_loop` is enough as soon as it covers the characters
from `pos` on, and the loop then appends to `retval` the tokens of the rest of
the string. -/
theorem split_loop_fuel (d : Char) (fuel : Nat) :
    ∀ (str : Str) (pos : Nat) (retval : List Str), str.length - pos ≤ fuel →
      split_loop str d fuel pos retval = retval ++ split_string (str.drop pos) d := by
  induction fuel using Nat.strong_induction_on with
  | _ fuel ih =>
    intro str pos retval hfuel
    by_cases hpos : pos < str.length
    · obtain ⟨f, rfl⟩ : ∃ f, fuel = f + 1 := ⟨fuel - 1, by omega⟩
      by_cases hd : d ∈ str.drop pos
      · obtain ⟨t, r, e, ht⟩ := first_occurrence d _ hd
        have hlen : str.length - pos = t.length + (r.length + 1) := by
          have := congrArg List.length e
          simpa using this
        have hdrop : str.drop (pos + t.length + 1) = r := by
          rw [Nat.add_assoc, ← List.drop_drop, e]
          simp
        have hL : split_loop str d (f + 1) pos retval =
            (if t = [] then retval else retval ++ [t]) ++ split_string r d := by
          rw [split_loop, if_pos hpos]
          simp only [find, e, findFrom_first d t r pos ht]
          rw [ih f (Nat.lt_succ_self f) str (pos + t.length + 1) _ (by omega), hdrop]
          congr 1
          by_cases htn : t = []
          · simp [htn]
          · have : 0 < t.length := List.length_pos.mpr htn
            have h1 : pos + t.length ≠ pos := by omega
            simp [h1, htn, substr, e]
        have hR : split_string (t ++ d :: r) d =
            (if t = [] then [] else [t]) ++ split_string r d := by
          have hl : (t ++ d :: r).length = (t.length + r.length) + 1 := by simp; omega
          rw [split_string, hl, split_loop, if_pos (by simp)]
          have hf : find (t ++ d :: r) d 0 = some t.length := by
            simpa [find] using findFrom_first d t r 0 ht
          simp only [hf]
          rw [ih (t.length + r.length) (by omega) (t ++ d :: r) (t.length + 1) _ (by simp; omega)]
          have : List.drop (t.length + 1) (t ++ d :: r) = r := by
            rw [← List.drop_drop]; simp
          rw [this]
          congr 1
          by_cases htn : t = []
          · simp [htn]
          · have : 0 < t.length := List.length_pos.mpr htn
            have h1 : t.length ≠ 0 := by omega
            simp [h1, htn, substr]
        rw [hL, e, hR]
        by_cases htn : t = [] <;> simp [htn]
      · have hne : str.drop pos ≠ [] := by
          intro e
          have := congrArg List.length e
          simp at this
          omega
        obtain ⟨l, hl⟩ : ∃ l, (str.drop pos).length = l + 1 :=
          ⟨(str.drop pos).length - 1, by have := List.length_pos.mpr hne; omega⟩
        rw [split_loop, if_pos hpos]
        simp only [find, findFrom_absent d _ pos hd, substrFrom]
        rw [split_string, hl, split_loop, if_pos (by omega)]
        simp [find, findFrom_absent d _ 0 hd, substrFrom]
    · have hnil : str.drop pos = [] := List.drop_of_length_le (by omega)
      have h0 : split_string [] d = [] := rfl
      rw [hnil, h0]
      cases fuel with
      | zero => simp [split_loop]
      | succ f => simp [split_loop, hpos]

theorem split_string_nil (d : Char) : split_string [] d = [] := rfl

/-- A leading delimiter is skipped. -/
theorem split_string_delim (d : Char) (s : Str) :
    split_string (d :: s) d = split_string s d := by
  have h := split_loop_fuel d s.length (d :: s) 1 [] (by simp)
  rw [split_string, List.length_cons, split_loop, if_pos (by simp)]
  simpa [find, findFrom] using h

/-- A token followed by a delimiter is the first token of the result. -/
theorem split_string_token_delim (d : Char) (t s : Str) (hne : t ≠ []) (hd : d ∉ t) :
    split_string (t ++ d :: s) d = t :: split_string s d := by
  have hl : (t ++ d :: s).length = (t.length + s.length) + 1 := by simp; omega
  have hf : find (t ++ d :: s) d 0 = some t.length := by
    simpa [find] using findFrom_first d t s 0 hd
  have hpos : 0 < t.length := List.length_pos.mpr hne
  have h1 : t.length ≠ 0 := by omega
  rw [split_string, hl, split_loop, if_pos (by simp)]
  simp only [hf]
  rw [split_loop_fuel d _ (t ++ d :: s) (t.length + 1) _ (by simp; omega)]
  have : List.drop (t.length + 1) (t ++ d :: s) = s := by
    rw [← List.drop_drop]; simp
  simp [this, h1, substr]

/-- A string without delimiter is one token. -/
theorem split_string_token (d : Char) (t : Str) (hne : t ≠ []) (hd : d ∉ t) :
    split_string t d = [t] := by
  obtain ⟨l, hl⟩ : ∃ l, t.length = l + 1 :=
    ⟨t.length - 1, by have := List.length_pos.mpr hne; omega⟩
  rw [split_string, hl, split_loop, if_pos (by omega)]
  simp [find, findFrom_absent d _ 0 hd, substrFrom]

theorem split_string_delims (d : Char) (k : Nat) (s : Str) :
    split_string (List.replicate k d ++ s) d = split_string s d := by
  induction k with
  | zero => simp
  | succ k ih => rw [List.replicate_succ, List.cons_append, split_string_delim, ih]

theorem split_string_only_delims (d : Char) (k : Nat) :
    split_string (List.replicate k d) d = [] := by
  have h := split_string_delims d k []
  simpa using h

theorem split_join_rest (d : Char) (trail : Nat) (segs : List (Nat × Str))
    (h : ∀ kt ∈ segs, 1 ≤ kt.1 ∧ kt.2 ≠ [] ∧ d ∉ kt.2) (t : Str) (hne : t ≠ []) (hd : d ∉ t) :
    split_string (t ++ (join_rest d segs ++ List.replicate trail d)) d
      = t :: segs.map Prod.snd := by
  induction segs generalizing t with
  | nil =>
    cases trail with
    | zero => simpa [join_rest] using split_string_token d t hne hd
    | succ n =>
      simp only [join_rest, List.nil_append, List.replicate_succ, List.map_nil]
      rw [split_string_token_delim d t _ hne hd, split_string_only_delims]
  | cons kt segs ih =>
    obtain ⟨k, t1⟩ := kt
    obtain ⟨hk, hne1, hd1⟩ := h (k, t1) (by simp)
    obtain ⟨k1, rfl⟩ : ∃ k1, k = k1 + 1 := ⟨k - 1, by omega⟩
    have hrest : ∀ kt ∈ segs, 1 ≤ kt.1 ∧ kt.2 ≠ [] ∧ d ∉ kt.2 :=
      fun kt hkt => h kt (List.mem_cons_of_mem _ hkt)
    simp only [join_rest, List.replicate_succ, List.cons_append, List.append_assoc,
      List.map_cons]
    rw [split_string_token_delim d t _ hne hd, split_string_delims, ih hrest t1 hne1 hd1]

/-- Every token `split_string` returns is non-empty and free of the
delimiter, for every input. -/
theorem split_string_tokens (d : Char) (n : Nat) :
    ∀ s : Str, s.length ≤ n → ∀ t ∈ split_string s d, t ≠ [] ∧ d ∉ t := by
  induction n with
  | zero =>
    intro s hs t ht
    have : s = [] := List.length_eq_zero.mp (by omega)
    subst this
    simp [split_string_nil] at ht
  | succ n ih =>
    intro s hs t ht
    by_cases hd : d ∈ s
    · obtain ⟨u, r, e, hu⟩ := first_occurrence d s hd
      subst e
      have hr : r.length ≤ n := by simp at hs; omega
      by_cases hune : u = []
      · subst hune
        rw [List.nil_append, split_string_delim] at ht
        exact ih r hr t ht
      · rw [split_string_token_delim d u r hune hu] at ht
        rcases List.mem_cons.mp ht with e | e
        · subst e; exact ⟨hune, hu⟩
        · exact ih r hr t e
    · by_cases hne : s = []
      · subst hne
        simp [split_string_nil] at ht
      · rw [split_string_token d s hne hd] at ht
        simp at ht
        subst ht
        exact ⟨hne, hd⟩

/-- C5: tokens that are non-empty and free of the delimiter, separated by
one or more delimiters each (with any number of leading and of trailing
delimiters), are split into exactly these tokens, which is also what the same
tokens joined by single delimiters give; and no input at all produces an empty
token. -/
theorem split_string_collapses (d : Char) (trail : Nat) (segs : List (Nat × Str))
    (htok : ∀ kt ∈ segs, kt.2 ≠ [] ∧ d ∉ kt.2) (hcount : ∀ kt ∈ segs.tail, 1 ≤ kt.1) :
    split_string (join_rest d segs ++ List.replicate trail d) d = segs.map Prod.snd
    ∧ split_string (join_single d (segs.map Prod.snd)) d = segs.map Prod.snd
    ∧ split_string (join_rest d segs ++ List.replicate trail d) d
        = split_string (join_single d (segs.map Prod.snd)) d
    ∧ ∀ s : Str, [] ∉ split_string s d := by
  have key : split_string (join_rest d segs ++ List.replicate trail d) d = segs.map Prod.snd
      ∧ split_string (join_single d (segs.map Prod.snd)) d = segs.map Prod.snd := by
    cases segs with
    | nil => exact ⟨by simpa [join_rest] using split_string_only_delims d trail, rfl⟩
    | cons kt segs =>
      obtain ⟨k, t⟩ := kt
      obtain ⟨hne, hd⟩ := htok (k, t) (by simp)
      have hrest : ∀ kt ∈ segs, 1 ≤ kt.1 ∧ kt.2 ≠ [] ∧ d ∉ kt.2 :=
        fun kt hkt => ⟨hcount kt (by simpa using hkt), htok kt (List.mem_cons_of_mem _ hkt)⟩
      constructor
      · simp only [join_rest, List.append_assoc, List.map_cons]
        rw [split_string_delims]
        exact split_join_rest d trail segs hrest t hne hd
      · have h1 : ∀ kt ∈ segs.map (fun kt => ((1 : Nat), kt.2)),
            1 ≤ kt.1 ∧ kt.2 ≠ [] ∧ d ∉ kt.2 := by
          intro kt hkt
          obtain ⟨x, hx, rfl⟩ := List.mem_map.mp hkt
          exact ⟨le_refl _, (hrest x hx).2⟩
        have := split_join_rest d 0 _ h1 t hne hd
        simpa [join_single, List.map_map, Function.comp_def] using this
  refine ⟨key.1, key.2, key.1.trans key.2.symm, ?_⟩
  intro s hs
  exact (split_string_tokens d s.length s (le_refl _) [] hs).1 rfl

/-- Witness of C5 on `  a   b c ` against `a b c`. -/
theorem split_string_collapses_witness :
    split_string "  a   b c ".toList ' ' = ["a".toList, "b".toList, "c".toList]
    ∧ split_string "a b c".toList ' ' = ["a".toList, "b".toList, "c".toList] := by
  have h := split_string_collapses ' ' 1
    [(2, "a".toList), (3, "b".toList), (1, "c".toList)] (by decide) (by decide)
  exact ⟨h.1, h.2.1⟩

/-! ## Facts about `parse_command_line` -/

theorem getElem?_append_pair_fst (pre : List Str) (x y : Str) :
    (pre ++ [x, y])[pre.length]? = some x := by
  induction pre with
  | nil => rfl
  | cons a pre ih => simpa using ih

theorem getElem?_append_pair_snd (pre : List Str) (x y : Str) :
    (pre ++ [x, y])[pre.length + 1]? = some y := by
  induction pre with
  | nil => rfl
  | cons a pre ih => simpa using ih

theorem drop_background_hit (size i : Nat) (e : Expression) (ts : List Str)
    (hi : i = size - 1) (hne : ts ≠ []) :
    drop_background size i (e, ts ++ [amp]) = ({ e with background := true }, ts) := by
  have hl : 0 < ts.length := List.length_pos.mpr hne
  have h1 : (ts ++ [amp]).length - 1 = ts.length := by simp
  have h2 : (ts ++ [amp])[ts.length]? = some amp := by simp
  simp only [drop_background, h1, h2]
  rw [if_pos ⟨hi, by simp; omega, trivial⟩]
  simp

theorem drop_background_miss (size i : Nat) (e : Expression) (ts : List Str)
    (h : i ≠ size - 1 ∨ ts.length ≤ 1 ∨ ts.getLast? ≠ some amp) :
    drop_background size i (e, ts) = (e, ts) := by
  unfold drop_background
  rw [if_neg]
  rintro ⟨h1, h2, h3⟩
  rcases h with h | h | h
  · exact h h1
  · simp only at h2; omega
  · apply h
    simp only at h3
    rw [List.getLast?_eq_getElem?]
    exact h3

theorem take_output_hit (size i : Nat) (e : Expression) (pre : List Str) (p : Str)
    (hi : i = size - 1) (hne : pre ≠ []) :
    take_output size i (e, pre ++ [gt, p]) = ({ e with outputToFile := p }, pre) := by
  have hl : 0 < pre.length := List.length_pos.mpr hne
  have h1 : (pre ++ [gt, p]).length - 2 = pre.length := by simp
  have h2 : (pre ++ [gt, p])[pre.length]? = some gt := getElem?_append_pair_fst pre _ _
  have h3 : (pre ++ [gt, p]).length - 1 = pre.length + 1 := by simp
  have h4 : (pre ++ [gt, p]).getD (pre.length + 1) [] = p := by
    rw [List.getD_eq_getElem?_getD, getElem?_append_pair_snd]; rfl
  simp only [take_output, h1, h2, h3, h4]
  rw [if_pos ⟨hi, by simp; omega, trivial⟩]
  simp

theorem take_output_miss (size i : Nat) (e : Expression) (ts : List Str)
    (h : i ≠ size - 1 ∨ ts.length ≤ 2 ∨ ts[ts.length - 2]? ≠ some gt) :
    take_output size i (e, ts) = (e, ts) := by
  unfold take_output
  rw [if_neg]
  rintro ⟨h1, h2, h3⟩
  rcases h with h | h | h
  · exact h h1
  · simp only at h2; omega
  · exact h h3

theorem take_input_hit (e : Expression) (pre : List Str) (p : Str) (hne : pre ≠ []) :
    take_input 0 (e, pre ++ [lt, p]) = ({ e with inputFromFile := p }, pre) := by
  have hl : 0 < pre.length := List.length_pos.mpr hne
  have h1 : (pre ++ [lt, p]).length - 2 = pre.length := by simp
  have h2 : (pre ++ [lt, p])[pre.length]? = some lt := getElem?_append_pair_fst pre _ _
  have h3 : (pre ++ [lt, p]).length - 1 = pre.length + 1 := by simp
  have h4 : (pre ++ [lt, p]).getD (pre.length + 1) [] = p := by
    rw [List.getD_eq_getElem?_getD, getElem?_append_pair_snd]; rfl
  simp only [take_input, h1, h2, h3, h4]
  rw [if_pos ⟨trivial, by simp; omega, trivial⟩]
  simp

theorem take_input_miss (i : Nat) (e : Expression) (ts : List Str)
    (h : i ≠ 0 ∨ ts.length ≤ 2 ∨ ts[ts.length - 2]? ≠ some lt) :
    take_input i (e, ts) = (e, ts) := by
  unfold take_input
  rw [if_neg]
  rintro ⟨h1, h2, h3⟩
  rcases h with h | h | h
  · exact h h1
  · simp only at h2; omega
  · exact h h3

/-- The tokens a step leaves do not depend on the expression. -/
theorem drop_background_snd (size i : Nat) (e e1 : Expression) (ts : List Str) :
    (drop_background size i (e, ts)).2 = (drop_background size i (e1, ts)).2 := by
  unfold drop_background; split <;> rfl

theorem take_output_snd (size i : Nat) (e e1 : Expression) (ts : List Str) :
    (take_output size i (e, ts)).2 = (take_output size i (e1, ts)).2 := by
  unfold take_output; split <;> rfl

theorem take_input_snd (i : Nat) (e e1 : Expression) (ts : List Str) :
    (take_input i (e, ts)).2 = (take_input i (e1, ts)).2 := by
  unfold take_input; split <;> rfl

/-- The three steps only ever touch their own field. -/
theorem drop_background_fields (size i : Nat) (st : Expression × List Str) :
    (drop_background size i st).1.commands = st.1.commands
    ∧ (drop_background size i st).1.inputFromFile = st.1.inputFromFile
    ∧ (drop_background size i st).1.outputToFile = st.1.outputToFile := by
  unfold drop_background; split <;> simp

theorem take_output_fields (size i : Nat) (st : Expression × List Str) :
    (take_output size i st).1.commands = st.1.commands
    ∧ (take_output size i st).1.inputFromFile = st.1.inputFromFile
    ∧ (take_output size i st).1.background = st.1.background := by
  unfold take_output; split <;> simp

theorem take_input_fields (i : Nat) (st : Expression × List Str) :
    (take_input i st).1.commands = st.1.commands
    ∧ (take_input i st).1.outputToFile = st.1.outputToFile
    ∧ (take_input i st).1.background = st.1.background := by
  unfold take_input; split <;> simp

/-- The tokens that become the Command of stage `i` of `size`. -/
theorem parse_stage_commands (size i : Nat) (line : Str) (e : Expression) :
    (parse_stage size i line e).commands = e.commands ++
      [{ parts := (take_input i (take_output size i (drop_background size i
        (({} : Expression), split_string line ' ')))).2 }] := by
  simp only [parse_stage]
  rw [(take_input_fields _ _).1, (take_output_fields _ _ _).1, (drop_background_fields _ _ _).1]
  congr 3
  generalize split_string line ' ' = ts
  have h1 := drop_background_snd size i e {} ts
  have h2 : (take_output size i (drop_background size i (e, ts))).2
      = (take_output size i (drop_background size i (({} : Expression), ts))).2 := by
    have := take_output_snd size i (drop_background size i (e, ts)).1
      (drop_background size i (({} : Expression), ts)).1 (drop_background size i (e, ts)).2
    rw [Prod.mk.eta] at this
    rw [this, h1]
  have := take_input_snd i (take_output size i (drop_background size i (e, ts))).1
    (take_output size i (drop_background size i (({} : Expression), ts))).1
    (take_output size i (drop_background size i (e, ts))).2
  rw [Prod.mk.eta] at this
  rw [this, h2]

theorem parse_stage_not_first (size i : Nat) (line : Str) (e : Expression) (hi : i ≠ 0) :
    (parse_stage size i line e).inputFromFile = e.inputFromFile := by
  simp only [parse_stage]
  rw [take_input_miss i _ _ (Or.inl hi)]
  simp only
  rw [(take_output_fields _ _ _).2.1, (drop_background_fields _ _ _).2.1]

theorem parse_stage_not_last (size i : Nat) (line : Str) (e : Expression) (hi : i ≠ size - 1) :
    (parse_stage size i line e).outputToFile = e.outputToFile
    ∧ (parse_stage size i line e).background = e.background := by
  simp only [parse_stage]
  rw [take_output_miss size i _ _ (Or.inl hi), drop_background_miss size i _ _ (Or.inl hi)]
  exact ⟨(take_input_fields _ _).2.1, (take_input_fields _ _).2.2⟩

theorem parse_loop_append (size : Nat) (xs ys : List Str) (i : Nat) (e : Expression) :
    parse_loop size (xs ++ ys) i e = parse_loop size ys (i + xs.length) (parse_loop size xs i e) := by
  induction xs generalizing i e with
  | nil => simp [parse_loop]
  | cons x xs ih =>
    have h := ih (i + 1) (parse_stage size i x e)
    rw [Nat.add_right_comm, Nat.add_assoc] at h
    simpa only [List.cons_append, parse_loop, List.length_cons] using h

theorem parse_loop_not_first (size : Nat) (lines : List Str) (i : Nat) (e : Expression)
    (hi : i ≠ 0) : (parse_loop size lines i e).inputFromFile = e.inputFromFile := by
  induction lines generalizing i e with
  | nil => rfl
  | cons x xs ih =>
    simp only [parse_loop]
    rw [ih (i + 1) _ (by omega), parse_stage_not_first size i x e hi]

theorem parse_loop_not_last (size : Nat) (lines : List Str) (i : Nat) (e : Expression)
    (hi : i + lines.length ≤ size - 1) :
    (parse_loop size lines i e).outputToFile = e.outputToFile
    ∧ (parse_loop size lines i e).background = e.background := by
  induction lines generalizing i e with
  | nil => exact ⟨rfl, rfl⟩
  | cons x xs ih =>
    simp only [parse_loop]
    simp only [List.length_cons] at hi
    have h1 := ih (i + 1) (parse_stage size i x e) (by omega)
    have h2 := parse_stage_not_last size i x e (by omega)
    exact ⟨h1.1.trans h2.1, h1.2.trans h2.2⟩

theorem parse_loop_length (size : Nat) (lines : List Str) (i : Nat) (e : Expression) :
    (parse_loop size lines i e).commands.length = e.commands.length + lines.length := by
  induction lines generalizing i e with
  | nil => rfl
  | cons x xs ih =>
    simp only [parse_loop]
    rw [ih, parse_stage_commands]
    simp
    omega

/-- The Command of the stage at position `k` of the lines still to do. -/
theorem parse_loop_command (size : Nat) (lines : List Str) (i : Nat) (e : Expression)
    (k : Nat) (line : Str) (hk : lines[k]? = some line) :
    (parse_loop size lines i e).commands[e.commands.length + k]? =
      some { parts := (take_input (i + k) (take_output size (i + k) (drop_background size (i + k)
        (({} : Expression), split_string line ' ')))).2 } := by
  induction lines generalizing i e k with
  | nil => simp at hk
  | cons x xs ih =>
    simp only [parse_loop]
    cases k with
    | zero =>
      simp only [List.getElem?_cons_zero, Option.some.injEq] at hk
      subst hk
      have hkeep : ∀ (ys : List Str) (j : Nat) (e1 : Expression) (c : Command) (n : Nat),
          e1.commands[n]? = some c → (parse_loop size ys j e1).commands[n]? = some c := by
        intro ys
        induction ys with
        | nil => intro j e1 c n h; exact h
        | cons y ys ihy =>
          intro j e1 c n h
          simp only [parse_loop]
          apply ihy
          rw [parse_stage_commands]
          have hn : n < e1.commands.length := by
            by_contra hcon
            rw [List.getElem?_eq_none (by omega)] at h
            exact Option.noConfusion h
          rw [List.getElem?_append_left hn]
          exact h
      apply hkeep
      rw [parse_stage_commands]
      simp
    | succ k =>
      simp only [List.getElem?_cons_succ] at hk
      have := ih (i + 1) (parse_stage size i x e) k hk
      rw [parse_stage_commands] at this
      simp only [List.length_append, List.length_singleton] at this
      have e1 : e.commands.length + (k + 1) = e.commands.length + 1 + k := by omega
      have e2 : i + (k + 1) = i + 1 + k := by omega
      rw [e1, e2]
      exact this

/-- With the last stage split off, parsing is the loop over the stages before
it, which leaves the output path and the background flag alone, followed by
the last stage. -/
theorem parse_last_stage (line : Str) (init : List Str) (last : Str)
    (hsplit : split_string line '|' = init ++ [last]) :
    parse_command_line line = parse_stage (init.length + 1) init.length last
        (parse_loop (init.length + 1) init 0 {})
    ∧ (parse_loop (init.length + 1) init 0 {}).outputToFile = []
    ∧ (parse_loop (init.length + 1) init 0 {}).background = false := by
  refine ⟨?_, ?_, ?_⟩
  · simp only [parse_command_line, hsplit]
    rw [parse_loop_append]
    simp [parse_loop]
  · exact (parse_loop_not_last _ init 0 {} (by simp)).1
  · exact (parse_loop_not_last _ init 0 {} (by simp)).2

theorem getLast?_parse_stage (size i : Nat) (line : Str) (e : Expression) :
    (parse_stage size i line e).commands.getLast? =
      some { parts := (take_input i (take_output size i (drop_background size i
        (({} : Expression), split_string line ' ')))).2 } := by
  rw [parse_stage_commands]
  simp

/-- The two stages of `a | b > p`, and the tokens of each. -/
theorem split_pipe_two (x y : Str) (hx : x ≠ []) (hx1 : '|' ∉ x) (hy : y ≠ [])
    (hy1 : '|' ∉ y) : split_string (x ++ '|' :: y) '|' = [x, y] := by
  rw [split_string_token_delim '|' x y hx hx1, split_string_token '|' y hy hy1]

theorem split_space_one (a : Str) (ha : a ≠ []) (ha1 : ' ' ∉ a) :
    split_string (a ++ [' ']) ' ' = [a] := by
  rw [split_string_token_delim ' ' a [] ha ha1]; rfl

theorem split_space_lead_one (b : Str) (hb : b ≠ []) (hb1 : ' ' ∉ b) :
    split_string (' ' :: b) ' ' = [b] := by
  rw [split_string_delim, split_string_token ' ' b hb hb1]

theorem split_space_three (a p : Str) (c : Char) (hc : c ≠ ' ') (ha : a ≠ []) (ha1 : ' ' ∉ a)
    (hp : p ≠ []) (hp1 : ' ' ∉ p) :
    split_string (a ++ ' ' :: c :: ' ' :: p) ' ' = [a, [c], p] := by
  rw [split_string_token_delim ' ' a _ ha ha1]
  have h : split_string ([c] ++ ' ' :: p) ' ' = [c] :: split_string p ' ' :=
    split_string_token_delim ' ' [c] p (by simp) (by simpa using hc.symm)
  rw [List.singleton_append] at h
  rw [h, split_string_token ' ' p hp hp1]

/-- C1: `a | b > p` parses to the two stages `[a]` and `[b]` with output path
`p`, no input path and no background flag; and on every line, when the tokens
of the last stage (after a trailing `&` was dropped) are `pre ++ [">", q]`
with `pre` non-empty, the output path is `q` and the Command of the last stage
is made from `pre` alone: it is `pre` when there are two stages or more, and
`pre` after the input-redirection step when the stage is also the first. -/
theorem parse_output_redirection (a b p : Str) (ha : Token a) (hb : Token b) (hp : Token p)
    (hpa : p ≠ amp) (line : Str) (init : List Str) (last : Str) (pre : List Str) (q : Str)
    (hsplit : split_string line '|' = init ++ [last])
    (htoks : (split_string last ' ' = pre ++ [gt, q] ∧ q ≠ amp)
      ∨ split_string last ' ' = pre ++ [gt, q] ++ [amp])
    (hpre : pre ≠ []) :
    parse_command_line (a ++ [' ', '|', ' '] ++ b ++ [' ', '>', ' '] ++ p)
      = { commands := [{ parts := [a] }, { parts := [b] }], inputFromFile := [],
          outputToFile := p, background := false }
    ∧ (parse_command_line line).outputToFile = q
    ∧ (parse_command_line line).commands.getLast?
        = some { parts := (take_input init.length (({} : Expression), pre)).2 }
    ∧ (init ≠ [] → (parse_command_line line).commands.getLast? = some { parts := pre }) := by
  obtain ⟨ha0, ha1, ha2⟩ := ha
  obtain ⟨hb0, hb1, hb2⟩ := hb
  obtain ⟨hp0, hp1, hp2⟩ := hp
  have hgen : (parse_command_line line).outputToFile = q
      ∧ (parse_command_line line).commands.getLast?
        = some { parts := (take_input init.length (({} : Expression), pre)).2 } := by
    obtain ⟨h1, h2, h3⟩ := parse_last_stage line init last hsplit
    have hi : init.length = init.length + 1 - 1 := by omega
    have hdrop : ∀ e : Expression, (drop_background (init.length + 1) init.length
        (e, split_string last ' ')).2 = pre ++ [gt, q] := by
      intro e
      rcases htoks with ⟨h, hq⟩ | h
      · rw [h, drop_background_miss _ _ _ _ (Or.inr (Or.inr (by simpa using hq)))]
      · rw [h, drop_background_hit _ _ _ _ hi (by simp)]
    constructor
    · rw [h1]
      simp only [parse_stage]
      rw [(take_input_fields _ _).2.1]
      have := hdrop (parse_loop (init.length + 1) init 0 {})
      rw [← Prod.mk.eta (p := drop_background _ _ _), this, take_output_hit _ _ _ _ _ hi hpre]
    · rw [h1, getLast?_parse_stage]
      have := hdrop {}
      rw [← Prod.mk.eta (p := drop_background _ _ _), this, take_output_hit _ _ _ _ _ hi hpre]
      rw [take_input_snd]
  refine ⟨?_, hgen.1, hgen.2, ?_⟩
  · have e1 : a ++ [' ', '|', ' '] ++ b ++ [' ', '>', ' '] ++ p
        = (a ++ [' ']) ++ '|' :: (' ' :: (b ++ ' ' :: '>' :: ' ' :: p)) := by simp
    have hs1 := split_pipe_two (a ++ [' ']) (' ' :: (b ++ ' ' :: '>' :: ' ' :: p)) (by simp)
      (by simp [ha2]) (by simp) (by simp [hb2, hp2])
    have hs2 := split_space_one a ha0 ha1
    have hs3 : split_string (' ' :: (b ++ ' ' :: '>' :: ' ' :: p)) ' ' = [b] ++ [gt, p] := by
      rw [split_string_delim, split_space_three b p '>' (by decide) hb0 hb1 hp0 hp1]; rfl
    rw [e1]
    simp only [parse_command_line, hs1, parse_loop, parse_stage, hs2, hs3, List.length_cons,
      List.length_nil]
    rw [drop_background_miss 2 0 _ _ (Or.inl (by decide)),
      take_output_miss 2 0 _ _ (Or.inl (by decide)),
      take_input_miss 0 _ _ (Or.inr (Or.inl (by simp)))]
    rw [drop_background_miss 2 1 _ _ (Or.inr (Or.inr (by simpa using hpa))),
      take_output_hit 2 1 _ _ _ rfl (by simp),
      take_input_miss 1 _ _ (Or.inl (by decide))]
    rfl
  · intro hinit
    rw [hgen.2, take_input_miss _ _ _ (Or.inl (by
      intro h; exact hinit (List.length_eq_zero.mp h)))]

/-- Witness of C1 on `a | b > out.txt` and on `sort -r > f &`. -/
theorem parse_output_redirection_witness :
    parse_command_line "a | b > out.txt".toList
      = { commands := [{ parts := ["a".toList] }, { parts := ["b".toList] }], inputFromFile := [],
          outputToFile := "out.txt".toList, background := false }
    ∧ (parse_command_line "sort -r > f &".toList).outputToFile = ['f'] :=
  have h := parse_output_redirection "a".toList "b".toList "out.txt".toList
    (by decide) (by decide) (by decide) (by decide)
    "sort -r > f &".toList [] "sort -r > f &".toList ["sort".toList, "-r".toList] ['f']
    (by decide) (Or.inr (by decide)) (by decide)
  ⟨h.1, h.2.1⟩

theorem take_output_drop_snd (size i : Nat) (e e1 : Expression) (ts : List Str) :
    (take_output size i (drop_background size i (e, ts))).2
      = (take_output size i (drop_background size i (e1, ts))).2 := by
  have h1 := drop_background_snd size i e e1 ts
  have h2 := take_output_snd size i (drop_background size i (e, ts)).1
    (drop_background size i (e1, ts)).1 (drop_background size i (e, ts)).2
  rw [Prod.mk.eta] at h2
  rw [h2, h1]

theorem split_space_op (a s : Str) (c : Char) (hc : c ≠ ' ') (ha : a ≠ []) (ha1 : ' ' ∉ a) :
    split_string (a ++ ' ' :: c :: ' ' :: s) ' ' = a :: [c] :: split_string s ' ' := by
  rw [split_string_token_delim ' ' a _ ha ha1]
  have h : split_string ([c] ++ ' ' :: s) ' ' = [c] :: split_string s ' ' :=
    split_string_token_delim ' ' [c] s (by simp) (by simpa using hc.symm)
  rw [List.singleton_append] at h
  rw [h]

/-- With the first stage split off, the input path is what stage 0 alone
yields, and the Command of stage 0 is made of its tokens alone. -/
theorem parse_first_stage (line first : Str) (rest : List Str)
    (hsplit : split_string line '|' = first :: rest) :
    (parse_command_line line).inputFromFile
        = (parse_stage (rest.length + 1) 0 first {}).inputFromFile
    ∧ (parse_command_line line).commands[0]?
        = some { parts := (take_input 0 (take_output (rest.length + 1) 0
            (drop_background (rest.length + 1) 0
              (({} : Expression), split_string first ' ')))).2 } := by
  constructor
  · simp only [parse_command_line, hsplit, parse_loop, List.length_cons]
    exact parse_loop_not_first _ rest 1 _ (by decide)
  · simp only [parse_command_line, hsplit, List.length_cons]
    have := parse_loop_command (rest.length + 1) (first :: rest) 0 {} 0 first (by simp)
    simpa using this

/-- C2, as amended: `a < p | b` parses to the two stages `[a]` and `[b]` with
input path `p` and no output path; on every line, when the tokens of stage 0
(the tokens as split when there are two stages or more; the tokens left by the
`&` and `>` steps when stage 0 is the only stage) are `pre ++ ["<", q]` with
`pre` non-empty, the input path is `q` and the Command of stage 0 is `pre`;
and the input path is never taken from another stage: on every line it is the
one stage 0 alone yields, it is empty when the line has no stage, and it is
empty on a line of two stages or more whose stage 0 does not have `<` as
second-to-last of more than two tokens, as on `a | b < f`. -/
theorem parse_input_redirection :
    (∀ a b p : Str, Token a → Token b → Token p →
      parse_command_line (a ++ [' ', '<', ' '] ++ p ++ [' ', '|', ' '] ++ b)
        = { commands := [{ parts := [a] }, { parts := [b] }], inputFromFile := p,
            outputToFile := [], background := false })
    ∧ (∀ (line first : Str) (rest pre : List Str) (q : Str),
        split_string line '|' = first :: rest →
        ((rest ≠ [] ∧ split_string first ' ' = pre ++ [lt, q])
          ∨ (rest = [] ∧ (take_output 1 0 (drop_background 1 0
              (({} : Expression), split_string first ' '))).2 = pre ++ [lt, q])) →
        pre ≠ [] →
        (parse_command_line line).inputFromFile = q
          ∧ (parse_command_line line).commands[0]? = some { parts := pre })
    ∧ (∀ (line first : Str) (rest : List Str), split_string line '|' = first :: rest →
        (parse_command_line line).inputFromFile
          = (parse_stage (rest.length + 1) 0 first {}).inputFromFile)
    ∧ (∀ line : Str, split_string line '|' = [] → (parse_command_line line).inputFromFile = [])
    ∧ (∀ (line first : Str) (rest : List Str), split_string line '|' = first :: rest →
        rest ≠ [] →
        ((split_string first ' ').length ≤ 2
          ∨ (split_string first ' ')[(split_string first ' ').length - 2]? ≠ some lt) →
        (parse_command_line line).inputFromFile = [])
    ∧ parse_command_line "a | b < f".toList
        = { commands := [{ parts := [['a']] }, { parts := [['b'], lt, ['f']] }],
            inputFromFile := [], outputToFile := [], background := false } := by
  refine ⟨?_, ?_, ?_, ?_, ?_, by decide⟩
  · rintro a b p ⟨ha0, ha1, ha2⟩ ⟨hb0, hb1, hb2⟩ ⟨hp0, hp1, hp2⟩
    have e1 : a ++ [' ', '<', ' '] ++ p ++ [' ', '|', ' '] ++ b
        = (a ++ ' ' :: '<' :: ' ' :: (p ++ [' '])) ++ '|' :: (' ' :: b) := by simp
    have hs1 := split_pipe_two (a ++ ' ' :: '<' :: ' ' :: (p ++ [' '])) (' ' :: b) (by simp)
      (by simp [ha2, hp2]) (by simp) (by simp [hb2])
    have hs2 : split_string (a ++ ' ' :: '<' :: ' ' :: (p ++ [' '])) ' ' = [a] ++ [lt, p] := by
      rw [split_space_op a _ '<' (by decide) ha0 ha1, split_space_one p hp0 hp1]; rfl
    have hs3 := split_space_lead_one b hb0 hb1
    rw [e1]
    simp only [parse_command_line, hs1, parse_loop, parse_stage, hs2, hs3, List.length_cons,
      List.length_nil]
    rw [drop_background_miss 2 0 _ _ (Or.inl (by decide)),
      take_output_miss 2 0 _ _ (Or.inl (by decide)),
      take_input_hit _ _ _ (by simp)]
    rw [drop_background_miss 2 1 _ _ (Or.inr (Or.inl (by simp))),
      take_output_miss 2 1 _ _ (Or.inr (Or.inl (by simp))),
      take_input_miss 1 _ _ (Or.inl (by decide))]
    rfl
  · intro line first rest pre q hsplit htoks hpre
    obtain ⟨h1, h2⟩ := parse_first_stage line first rest hsplit
    have hsteps : (take_output (rest.length + 1) 0
        (drop_background (rest.length + 1) 0 (({} : Expression), split_string first ' '))).2
          = pre ++ [lt, q] := by
      rcases htoks with ⟨hr, h⟩ | ⟨hr, h⟩
      · have hn : (0 : Nat) ≠ rest.length + 1 - 1 := by
          intro h0
          exact hr (List.length_eq_zero.mp (by omega))
        rw [drop_background_miss _ _ _ _ (Or.inl hn), take_output_miss _ _ _ _ (Or.inl hn), h]
      · subst hr
        exact h
    constructor
    · rw [h1]
      simp only [parse_stage]
      rw [← Prod.mk.eta (p := take_output _ _ _), hsteps, take_input_hit _ _ _ hpre]
    · rw [h2]
      rw [← Prod.mk.eta (p := take_output _ _ _), hsteps, take_input_hit _ _ _ hpre]
  · intro line first rest hsplit
    exact (parse_first_stage line first rest hsplit).1
  · intro line hsplit
    simp only [parse_command_line, hsplit]
    rfl
  · intro line first rest hsplit hrest hmiss
    rw [(parse_first_stage line first rest hsplit).1]
    have hn : (0 : Nat) ≠ rest.length + 1 - 1 := by
      intro h0
      exact hrest (List.length_eq_zero.mp (by omega))
    simp only [parse_stage]
    rw [drop_background_miss _ _ _ _ (Or.inl hn), take_output_miss _ _ _ _ (Or.inl hn),
      take_input_miss _ _ _ (Or.inr hmiss)]

/-- Witness of C2 as amended, on `a < in.txt | b`, on the single stage
`wc -l < f > g &` and on `a | b < f | c`. -/
theorem parse_input_redirection_witness :
    parse_command_line "a < in.txt | b".toList
      = { commands := [{ parts := ["a".toList] }, { parts := ["b".toList] }],
          inputFromFile := "in.txt".toList, outputToFile := [], background := false }
    ∧ (parse_command_line "wc -l < f > g &".toList).inputFromFile = ['f']
    ∧ (parse_command_line "a | b < f | c".toList).inputFromFile = [] :=
  ⟨parse_input_redirection.1 "a".toList "b".toList "in.txt".toList
      (by decide) (by decide) (by decide),
    (parse_input_redirection.2.1 "wc -l < f > g &".toList "wc -l < f > g &".toList []
      ["wc".toList, "-l".toList] ['f'] (by decide) (Or.inr (by decide)) (by decide)).1,
    parse_input_redirection.2.2.2.2.1 "a | b < f | c".toList "a ".toList
      [" b < f ".toList, " c".toList] (by decide) (by decide) (Or.inl (by decide))⟩

/-- C2, as stated, fails on the single stage `a < &`: its tokens are `a`, `<`,
`&` (more than two, the second-to-last being `<`), yet the `&` is taken as the
background marker first, no input path is set and `<` stays in the Command. -/
theorem parse_input_redirection_counterexample :
    split_string "a < &".toList '|' = ["a < &".toList]
    ∧ split_string "a < &".toList ' ' = [['a'], lt, amp]
    ∧ (parse_command_line "a < &".toList).inputFromFile = []
    ∧ (parse_command_line "a < &".toList).inputFromFile ≠ amp
    ∧ (parse_command_line "a < &".toList).commands = [{ parts := [['a'], lt] }]
    ∧ (parse_command_line "a < &".toList).background = true := by
  decide

/-- C3: when the tokens of the last stage are `ts ++ ["&"]` with `ts`
non-empty, the background flag is set and the Command of the last stage is
made from `ts` (by the output and input steps); `a &` parses to the single
stage `[a]` in the background; and a last stage that is the single token `&`
leaves the flag unset and is the Command `["&"]`. -/
theorem parse_background (a : Str) (ha : Token a) (line : Str) (init : List Str) (last : Str)
    (ts : List Str) (hsplit : split_string line '|' = init ++ [last])
    (htoks : split_string last ' ' = ts ++ [amp]) (hts : ts ≠ [])
    (line1 : Str) (init1 : List Str) (last1 : Str)
    (hsplit1 : split_string line1 '|' = init1 ++ [last1])
    (htoks1 : split_string last1 ' ' = [amp]) :
    ((parse_command_line line).background = true
      ∧ (parse_command_line line).commands.getLast?
        = some { parts := (take_input init.length (take_output (init.length + 1) init.length
            (({} : Expression), ts))).2 })
    ∧ parse_command_line (a ++ [' ', '&'])
      = { commands := [{ parts := [a] }], inputFromFile := [], outputToFile := [],
          background := true }
    ∧ ((parse_command_line line1).background = false
      ∧ (parse_command_line line1).commands.getLast? = some { parts := [amp] }) := by
  obtain ⟨ha0, ha1, ha2⟩ := ha
  have hi : init.length = init.length + 1 - 1 := by omega
  refine ⟨⟨?_, ?_⟩, ?_, ?_, ?_⟩
  · rw [(parse_last_stage line init last hsplit).1]
    simp only [parse_stage]
    rw [(take_input_fields _ _).2.2, (take_output_fields _ _ _).2.2, htoks,
      drop_background_hit _ _ _ _ hi hts]
  · rw [(parse_last_stage line init last hsplit).1, getLast?_parse_stage, htoks,
      drop_background_hit _ _ _ _ hi hts]
    have e2 := take_output_snd (init.length + 1) init.length
      { ({} : Expression) with background := true } {} ts
    have e3 := take_input_snd init.length
      (take_output (init.length + 1) init.length
        ({ ({} : Expression) with background := true }, ts)).1
      (take_output (init.length + 1) init.length (({} : Expression), ts)).1
      (take_output (init.length + 1) init.length
        ({ ({} : Expression) with background := true }, ts)).2
    rw [Prod.mk.eta] at e3
    rw [e3, e2]
  · have hs1 : split_string (a ++ [' ', '&']) '|' = [a ++ [' ', '&']] :=
      split_string_token '|' _ (by simp) (by simp [ha2])
    have hs2 : split_string (a ++ [' ', '&']) ' ' = [a] ++ [amp] := by
      have e : a ++ [' ', '&'] = a ++ ' ' :: ['&'] := rfl
      rw [e, split_string_token_delim ' ' a _ ha0 ha1,
        split_string_token ' ' ['&'] (by simp) (by decide)]
      rfl
    simp only [parse_command_line, hs1, parse_loop, parse_stage, hs2, List.length_cons,
      List.length_nil]
    rw [drop_background_hit 1 0 _ _ rfl (by simp),
      take_output_miss 1 0 _ _ (Or.inr (Or.inl (by simp))),
      take_input_miss 0 _ _ (Or.inr (Or.inl (by simp)))]
    rfl
  · obtain ⟨h1, _, h3⟩ := parse_last_stage line1 init1 last1 hsplit1
    rw [h1]
    simp only [parse_stage]
    rw [(take_input_fields _ _).2.2, (take_output_fields _ _ _).2.2, htoks1,
      drop_background_miss _ _ _ _ (Or.inr (Or.inl (by simp)))]
    exact h3
  · rw [(parse_last_stage line1 init1 last1 hsplit1).1, getLast?_parse_stage, htoks1,
      drop_background_miss _ _ _ _ (Or.inr (Or.inl (by simp))),
      take_output_miss _ _ _ _ (Or.inr (Or.inl (by simp))),
      take_input_miss _ _ _ (Or.inr (Or.inl (by simp)))]

/-- Witness of C3 on `a &`, on `a | b > f &` and on `a | &`. -/
theorem parse_background_witness :
    parse_command_line "a &".toList
      = { commands := [{ parts := [['a']] }], inputFromFile := [], outputToFile := [],
          background := true }
    ∧ (parse_command_line "a | b > f &".toList).background = true
    ∧ (parse_command_line "a | &".toList).background = false :=
  have h := parse_background ['a'] (by decide)
    "a | b > f &".toList ["a ".toList] " b > f &".toList [['b'], gt, ['f']]
    (by decide) (by decide) (by decide)
    "a | &".toList ["a ".toList] " &".toList (by decide) (by decide)
  ⟨h.2.1, h.1.1, h.2.2.1⟩

/-- What the first step leaves, written out. -/
theorem drop_background_explicit (size i : Nat) (e : Expression) (ts : List Str)
    (hi : i = size - 1) :
    (drop_background size i (e, ts)).2
      = if 1 < ts.length ∧ ts.getLast? = some amp then ts.dropLast else ts := by
  unfold drop_background
  rw [List.getLast?_eq_getElem?, List.dropLast_eq_take]
  by_cases h : 1 < ts.length ∧ ts[ts.length - 1]? = some amp
  · rw [if_pos ⟨hi, h⟩, if_pos h]
  · rw [if_neg (fun hc => h hc.2), if_neg h]

theorem take_output_out (size i : Nat) (e : Expression) (ts : List Str) :
    (take_output size i (e, ts)).1.outputToFile
      = if i = size - 1 ∧ ts.length > 2 ∧ ts[ts.length - 2]? = some gt
        then ts.getD (ts.length - 1) [] else e.outputToFile := by
  unfold take_output
  split <;> rfl

/-- The output path a last stage yields depends on its tokens only. -/
theorem last_stage_output (size i : Nat) (e : Expression) (ts : List Str)
    (hi : i = size - 1) (he : e.outputToFile = []) :
    (take_output size i (drop_background size i (e, ts))).1.outputToFile
      = (take_output 1 0 (drop_background 1 0 (({} : Expression), ts))).1.outputToFile := by
  rw [← Prod.mk.eta (p := drop_background size i (e, ts)),
    ← Prod.mk.eta (p := drop_background 1 0 (({} : Expression), ts)),
    take_output_out, take_output_out, drop_background_explicit size i e ts hi,
    drop_background_explicit 1 0 {} ts rfl, (drop_background_fields _ _ _).2.2,
    (drop_background_fields _ _ _).2.2]
  simp [hi, he]

theorem parse_output_of_last (line : Str) (init : List Str) (last : Str)
    (hsplit : split_string line '|' = init ++ [last]) :
    (parse_command_line line).outputToFile
      = (take_output 1 0 (drop_background 1 0
          (({} : Expression), split_string last ' '))).1.outputToFile := by
  obtain ⟨h1, h2, _⟩ := parse_last_stage line init last hsplit
  rw [h1]
  simp only [parse_stage]
  rw [(take_input_fields _ _).2.1]
  exact last_stage_output _ _ _ _ (by omega) h2

/-- C9, as amended: on a line of two stages or more, every stage strictly
between the first and the last has its tokens as its Command, unchanged;
stage 0 has its tokens as its Command except for the input-redirection step
(its tokens unchanged when the second-to-last of them is not `<`); the output
path is the same for every line with the same last stage; and when the tokens
of the last stage, after a trailing `&` was dropped, do not have `>` as
second-to-last of more than two, the output path is empty and these tokens are
the Command.  On `a > x | b` stage 0 is `[a, >, x]` and the output path is
empty. -/
theorem parse_gt_elsewhere (line first : Str) (mid : List Str) (last : Str)
    (hsplit : split_string line '|' = first :: (mid ++ [last])) :
    (∀ (k : Nat) (stage : Str), mid[k]? = some stage →
        (parse_command_line line).commands[k + 1]? = some { parts := split_string stage ' ' })
    ∧ (parse_command_line line).commands[0]?
        = some { parts := (take_input 0 (({} : Expression), split_string first ' ')).2 }
    ∧ ((split_string first ' ').length ≤ 2
        ∨ (split_string first ' ')[(split_string first ' ').length - 2]? ≠ some lt →
        (parse_command_line line).commands[0]? = some { parts := split_string first ' ' })
    ∧ (∀ (line1 : Str) (init1 : List Str), split_string line1 '|' = init1 ++ [last] →
        (parse_command_line line1).outputToFile = (parse_command_line line).outputToFile)
    ∧ (∀ toks : List Str,
        toks = (if 1 < (split_string last ' ').length ∧ (split_string last ' ').getLast? = some amp
          then (split_string last ' ').dropLast else split_string last ' ') →
        toks.length ≤ 2 ∨ toks[toks.length - 2]? ≠ some gt →
        (parse_command_line line).outputToFile = []
          ∧ (parse_command_line line).commands.getLast? = some { parts := toks })
    ∧ parse_command_line "a > x | b".toList
        = { commands := [{ parts := [['a'], gt, ['x']] }, { parts := [['b']] }],
            inputFromFile := [], outputToFile := [], background := false } := by
  have hsplit1 : split_string line '|' = (first :: mid) ++ [last] := by simpa using hsplit
  have hn0 : (0 : Nat) ≠ (mid ++ [last]).length + 1 - 1 := by simp
  have h0 := (parse_first_stage line first (mid ++ [last]) hsplit).2
  rw [drop_background_miss _ _ _ _ (Or.inl hn0), take_output_miss _ _ _ _ (Or.inl hn0)] at h0
  refine ⟨?_, h0, ?_, ?_, ?_, by decide⟩
  · intro k stage hk
    have hlen : k < mid.length := by
      by_contra hcon
      rw [List.getElem?_eq_none (by omega)] at hk
      exact Option.noConfusion hk
    have hk1 : (first :: (mid ++ [last]))[k + 1]? = some stage := by
      rw [List.getElem?_cons_succ, List.getElem?_append_left hlen]
      exact hk
    have := parse_loop_command ((first :: (mid ++ [last])).length) (first :: (mid ++ [last])) 0 {}
      (k + 1) stage hk1
    have hne : (0 + (k + 1)) ≠ (first :: (mid ++ [last])).length - 1 := by
      simp; omega
    rw [drop_background_miss _ _ _ _ (Or.inl hne), take_output_miss _ _ _ _ (Or.inl hne),
      take_input_miss _ _ _ (Or.inl (by omega))] at this
    simp only [parse_command_line, hsplit]
    simpa using this
  · intro h
    rw [h0, take_input_miss _ _ _ (Or.inr h)]
  · intro line1 init1 h1
    rw [parse_output_of_last line1 init1 last h1, parse_output_of_last line _ last hsplit1]
  · intro toks htoks hmiss
    obtain ⟨h1, h2, _⟩ := parse_last_stage line (first :: mid) last hsplit1
    have hi : (first :: mid).length = (first :: mid).length + 1 - 1 := by omega
    have hd : ∀ e : Expression, (drop_background ((first :: mid).length + 1) (first :: mid).length
        (e, split_string last ' ')).2 = toks := by
      intro e
      rw [htoks]
      exact drop_background_explicit _ _ e _ hi
    constructor
    · rw [h1]
      simp only [parse_stage]
      rw [(take_input_fields _ _).2.1]
      have := hd (parse_loop ((first :: mid).length + 1) (first :: mid) 0 {})
      rw [← Prod.mk.eta (p := drop_background _ _ _), this,
        take_output_miss _ _ _ _ (Or.inr hmiss)]
      simp only
      rw [(drop_background_fields _ _ _).2.2]
      exact h2
    · rw [h1, getLast?_parse_stage]
      have := hd {}
      rw [← Prod.mk.eta (p := drop_background _ _ _), this,
        take_output_miss _ _ _ _ (Or.inr hmiss),
        take_input_miss _ _ _ (Or.inl (by simp))]

/-- Witness of C9 as amended, on `a > x | b > y | c d > e`. -/
theorem parse_gt_elsewhere_witness :
    (parse_command_line "a > x | b > y | c d > e".toList).commands[1]?
        = some { parts := [['b'], gt, ['y']] }
    ∧ (parse_command_line "a > x | b > y | c d > e".toList).commands[0]?
        = some { parts := [['a'], gt, ['x']] } :=
  have h := parse_gt_elsewhere "a > x | b > y | c d > e".toList "a > x ".toList
    [" b > y ".toList] " c d > e".toList (by decide)
  ⟨h.1 0 " b > y ".toList (by decide), h.2.2.1 (Or.inr (by decide))⟩

/-- C9, as stated, fails on `a < > | b`: the `>` of stage 0 is taken as the
input path and is no part of the Command of stage 0; and on `a > < x | b` the
token behind the `>` of stage 0 is dropped from the Command. -/
theorem parse_gt_elsewhere_counterexample :
    split_string "a < > | b".toList '|' = ["a < > ".toList, " b".toList]
    ∧ gt ∈ split_string "a < > ".toList ' '
    ∧ (parse_command_line "a < > | b".toList).commands[0]? = some { parts := [['a']] }
    ∧ gt ∉ [['a']]
    ∧ (parse_command_line "a < > | b".toList).inputFromFile = gt
    ∧ split_string "a > < x ".toList ' ' = [['a'], gt, lt, ['x']]
    ∧ (parse_command_line "a > < x | b".toList).commands[0]? = some { parts := [['a'], gt] } := by
  decide

/-- No token comes out of a string exactly when it holds delimiters only. -/
theorem split_string_eq_nil (d : Char) (n : Nat) :
    ∀ s : Str, s.length ≤ n → (split_string s d = [] ↔ ∀ c ∈ s, c = d) := by
  induction n with
  | zero =>
    intro s hs
    have : s = [] := List.length_eq_zero.mp (by omega)
    subst this
    simp [split_string_nil]
  | succ n ih =>
    intro s hs
    by_cases hd : d ∈ s
    · obtain ⟨u, r, e, hu⟩ := first_occurrence d s hd
      subst e
      have hr : r.length ≤ n := by simp at hs; omega
      by_cases hune : u = []
      · subst hune
        rw [List.nil_append, split_string_delim, ih r hr]
        simp
      · rw [split_string_token_delim d u r hune hu]
        simp only [List.cons_ne_nil, false_iff]
        intro hall
        obtain ⟨c, u1, rfl⟩ := List.exists_cons_of_ne_nil hune
        have := hall c (by simp)
        exact hu (by simp [this])
    · by_cases hne : s = []
      · subst hne
        simp [split_string_nil]
      · rw [split_string_token d s hne hd]
        simp only [List.cons_ne_nil, false_iff]
        intro hall
        obtain ⟨c, u1, rfl⟩ := List.exists_cons_of_ne_nil hne
        have := hall c (by simp)
        exact hd (by simp [this])

/-- The three steps of a stage leave no token exactly when there was none. -/
theorem stage_steps_eq_nil (size i : Nat) (e : Expression) (ts : List Str) :
    (take_input i (take_output size i (drop_background size i (e, ts)))).2 = [] ↔ ts = [] := by
  have h1 : (drop_background size i (e, ts)).2 = [] ↔ ts = [] := by
    unfold drop_background
    split
    · rename_i h
      simp only [List.take_eq_nil_iff]
      have : ts.length > 1 := h.2.1
      constructor
      · rintro (h0 | h0)
        · omega
        · exact h0
      · intro h0; subst h0; simp at this
    · rfl
  have h2 : ∀ st : Expression × List Str, (take_output size i st).2 = [] ↔ st.2 = [] := by
    intro st
    unfold take_output
    split
    · rename_i h
      simp only [List.take_eq_nil_iff]
      have := h.2.1
      constructor
      · rintro (h0 | h0)
        · omega
        · exact h0
      · intro h0; rw [h0] at this; simp at this
    · rfl
  have h3 : ∀ st : Expression × List Str, (take_input i st).2 = [] ↔ st.2 = [] := by
    intro st
    unfold take_input
    split
    · rename_i h
      simp only [List.take_eq_nil_iff]
      have := h.2.1
      constructor
      · rintro (h0 | h0)
        · omega
        · exact h0
      · intro h0; rw [h0] at this; simp at this
    · rfl
  rw [h3, h2, h1]

/-- The Command of a stage is empty exactly when the text of the stage is
made of spaces. -/
theorem parse_command_eq_nil (line : Str) (k : Nat) (stage : Str) (cmd : Command)
    (hk : (split_string line '|')[k]? = some stage)
    (hc : (parse_command_line line).commands[k]? = some cmd) :
    cmd.parts = [] ↔ ∀ c ∈ stage, c = ' ' := by
  have := parse_loop_command (split_string line '|').length (split_string line '|') 0 {} k
    stage hk
  simp only [parse_command_line] at hc
  have e0 : ({} : Expression).commands.length + k = k := by simp
  rw [e0, hc] at this
  have hcmd := Option.some.inj this
  have hnil := stage_steps_eq_nil (split_string line '|').length (0 + k) {}
    (split_string stage ' ')
  have hsp := split_string_eq_nil ' ' stage.length stage (le_refl _)
  rw [hcmd]
  exact hnil.trans hsp

theorem parse_commands_length (line : Str) :
    (parse_command_line line).commands.length = (split_string line '|').length := by
  simp only [parse_command_line]
  rw [parse_loop_length]
  simp

/-- C6, as amended: `parse_command_line` returns one Command for each stage
the line splits into, and the Command of a stage has a token exactly when the
text of the stage has a character other than the space. -/
theorem parse_command_nonempty (line : Str) :
    (parse_command_line line).commands.length = (split_string line '|').length
    ∧ ∀ (k : Nat) (stage : Str) (cmd : Command), (split_string line '|')[k]? = some stage →
        (parse_command_line line).commands[k]? = some cmd →
        (1 ≤ cmd.parts.length ↔ ∃ c ∈ stage, c ≠ ' ') := by
  refine ⟨parse_commands_length line, ?_⟩
  intro k stage cmd hk hc
  have hparts := parse_command_eq_nil line k stage cmd hk hc
  constructor
  · intro h1
    by_contra hcon
    have hall : ∀ c ∈ stage, c = ' ' := by
      intro c hmem
      by_contra hne
      exact hcon ⟨c, hmem, hne⟩
    have := hparts.mpr hall
    rw [this] at h1
    simp at h1
  · rintro ⟨c, hmem, hne⟩
    have : cmd.parts ≠ [] := fun h0 => hne (hparts.mp h0 c hmem)
    exact List.length_pos.mpr this

/-- Witness of C6 as amended, on the blank stage and on the last stage of `a | | b`. -/
theorem parse_command_nonempty_witness :
    (1 ≤ ([] : List Str).length ↔ ∃ c ∈ " ".toList, c ≠ ' ')
    ∧ (1 ≤ [['b']].length ↔ ∃ c ∈ " b".toList, c ≠ ' ') :=
  ⟨(parse_command_nonempty "a | | b".toList).2 1 " ".toList { parts := [] }
      (by decide) (by decide),
    (parse_command_nonempty "a | | b".toList).2 2 " b".toList { parts := [['b']] }
      (by decide) (by decide)⟩

/-- C6, as stated, fails: a line of spaces is one stage whose Command has no
token, and so are the middle stage of `a | | b` and the first of ` | a`. -/
theorem parse_command_nonempty_counterexample :
    (parse_command_line "   ".toList).commands = [{ parts := [] }]
    ∧ ¬ (∀ c ∈ (parse_command_line "   ".toList).commands, 1 ≤ c.parts.length)
    ∧ (parse_command_line "a | | b".toList).commands
        = [{ parts := [['a']] }, { parts := [] }, { parts := [['b']] }]
    ∧ (parse_command_line " | a".toList).commands = [{ parts := [] }, { parts := [['a']] }] := by
  decide

/-! ## Facts about `fix_grep_quotes` -/

theorem fix_quoted_quoted (w : Str) (hw : w.length < 2 ^ 64) :
    fix_quoted ('"' :: (w ++ ['"'])) = w := by
  have hlen : ('"' :: (w ++ ['"'])).length = w.length + 2 := by simp
  have hmod : (w.length + 2 + 2 ^ 64 - 2) % 2 ^ 64 = w.length := by
    have : w.length + 2 + 2 ^ 64 - 2 = w.length + 2 ^ 64 := by omega
    rw [this, Nat.add_mod_right, Nat.mod_eq_of_lt hw]
  have h1 : ('"' :: (w ++ ['"'])).head? = some '"' := rfl
  have h2 : ('"' :: (w ++ ['"'])).getLast? = some '"' := by
    rw [← List.cons_append, List.getLast?_append]; rfl
  unfold fix_quoted
  rw [if_pos ⟨h1, h2⟩, hlen, hmod]
  simp [substr]

theorem fix_quoted_other (t : Str)
    (h : ¬ (t.head? = some '"' ∧ t.getLast? = some '"')) : fix_quoted t = t := by
  unfold fix_quoted
  rw [if_neg h]

theorem fix_grep_command_grep (args : List Str) :
    fix_grep_command { parts := grep :: args } = { parts := grep :: args.map fix_quoted } := by
  unfold fix_grep_command
  cases args with
  | nil => simp
  | cons x xs => simp

theorem fix_grep_command_other (name : Str) (args : List Str) (h : name ≠ grep) :
    fix_grep_command { parts := name :: args } = { parts := name :: args } := by
  unfold fix_grep_command
  simp [h]

/-- C4, as amended: after `parse_command_line` and `fix_grep_quotes` the line
`grep "foo bar"` is the single Command `grep`, `"foo`, `bar"` of three parts,
quotes kept, the line being split at the space before the quotes are looked
at (and at a `|`: `grep "a|b"` is the two stages `grep "a` and `b"`).  What the
quote fix does is this: in every Command whose first part is `grep`, each
later part is replaced by `fix_quoted` of it, which is the text between the
quotes for a part that starts and ends with a double quote and the part
itself for any other; a Command of another name is left alone.  So a quoted
argument with no space and no `|` in it, as in `grep "foo"`, reaches the
program without its quotes. -/
theorem grep_quotes :
    fix_grep_quotes (parse_command_line ("grep ".toList ++ ['"'] ++ "foo bar".toList ++ ['"']))
      = { commands := [{ parts := [grep, ['"', 'f', 'o', 'o'], ['b', 'a', 'r', '"']] }],
          inputFromFile := [], outputToFile := [], background := false }
    ∧ fix_grep_quotes (parse_command_line ("grep ".toList ++ ['"'] ++ "a|b".toList ++ ['"']))
      = { commands := [{ parts := [grep, ['"', 'a']] }, { parts := [['b', '"']] }],
          inputFromFile := [], outputToFile := [], background := false }
    ∧ (∀ w : Str, ' ' ∉ w → '|' ∉ w → w.length < 2 ^ 64 →
        fix_grep_quotes (parse_command_line ("grep ".toList ++ ['"'] ++ w ++ ['"']))
          = { commands := [{ parts := [grep, w] }],
              inputFromFile := [], outputToFile := [], background := false })
    ∧ (∀ (e : Expression) (k : Nat) (args : List Str),
        e.commands[k]? = some { parts := grep :: args } →
        (fix_grep_quotes e).commands[k]? = some { parts := grep :: args.map fix_quoted })
    ∧ (∀ (e : Expression) (k : Nat) (name : Str) (args : List Str), name ≠ grep →
        e.commands[k]? = some { parts := name :: args } →
        (fix_grep_quotes e).commands[k]? = some { parts := name :: args })
    ∧ (∀ e : Expression, (fix_grep_quotes e).commands.length = e.commands.length
        ∧ (fix_grep_quotes e).inputFromFile = e.inputFromFile
        ∧ (fix_grep_quotes e).outputToFile = e.outputToFile
        ∧ (fix_grep_quotes e).background = e.background)
    ∧ (∀ w : Str, w.length < 2 ^ 64 → fix_quoted ('"' :: (w ++ ['"'])) = w)
    ∧ fix_quoted ['"'] = []
    ∧ (∀ t : Str, ¬ (t.head? = some '"' ∧ t.getLast? = some '"') → fix_quoted t = t) := by
  refine ⟨by decide, by decide, ?_, ?_, ?_, ?_, fix_quoted_quoted, by decide, fix_quoted_other⟩
  · intro w hw1 hw2 hw
    have e1 : "grep ".toList ++ ['"'] ++ w ++ ['"'] = grep ++ ' ' :: ('"' :: (w ++ ['"'])) := by
      simp [grep]
    have hs1 : split_string (grep ++ ' ' :: ('"' :: (w ++ ['"']))) '|'
        = [grep ++ ' ' :: ('"' :: (w ++ ['"']))] :=
      split_string_token '|' _ (by simp [grep]) (by simp [grep, hw2])
    have hs2 : split_string (grep ++ ' ' :: ('"' :: (w ++ ['"']))) ' '
        = [grep, '"' :: (w ++ ['"'])] := by
      rw [split_string_token_delim ' ' grep _ (by simp [grep]) (by decide),
        split_string_token ' ' _ (by simp) (by simp [hw1])]
    rw [e1]
    simp only [parse_command_line, hs1, parse_loop, parse_stage, hs2, List.length_cons,
      List.length_nil]
    rw [drop_background_miss 1 0 _ _ (Or.inr (Or.inr (by simp [amp]))),
      take_output_miss 1 0 _ _ (Or.inr (Or.inl (by simp))),
      take_input_miss 0 _ _ (Or.inr (Or.inl (by simp)))]
    simp [fix_grep_quotes, fix_grep_command, fix_quoted_quoted w hw]
  · intro e k args h
    simp only [fix_grep_quotes, List.getElem?_map, h, Option.map_some']
    rw [fix_grep_command_grep]
  · intro e k name args hne h
    simp only [fix_grep_quotes, List.getElem?_map, h, Option.map_some']
    rw [fix_grep_command_other name args hne]
  · intro e
    simp [fix_grep_quotes]

/-- Witness of C4 as amended, on `grep "foo"` and on the second stage of
`cat f | grep "x" -v`. -/
theorem grep_quotes_witness :
    fix_grep_quotes (parse_command_line ("grep ".toList ++ ['"'] ++ "foo".toList ++ ['"']))
      = { commands := [{ parts := [grep, "foo".toList] }],
          inputFromFile := [], outputToFile := [], background := false }
    ∧ (fix_grep_quotes (parse_command_line
        ("cat f | grep ".toList ++ ['"', 'x', '"'] ++ " -v".toList))).commands[1]?
      = some { parts := [grep, ['x'], "-v".toList] } :=
  ⟨grep_quotes.2.2.1 "foo".toList (by decide) (by decide) (by decide),
    grep_quotes.2.2.2.1 (parse_command_line
      ("cat f | grep ".toList ++ ['"', 'x', '"'] ++ " -v".toList)) 1
      [['"', 'x', '"'], "-v".toList] (by decide)⟩

/-- C4, as stated, fails: the Command of `grep "foo bar"` has three parts, not
the two parts `grep` and `foo bar`. -/
theorem grep_quotes_counterexample :
    (fix_grep_quotes (parse_command_line
        ("grep ".toList ++ ['"'] ++ "foo bar".toList ++ ['"']))).commands
      ≠ [{ parts := [grep, "foo bar".toList] }]
    ∧ ((fix_grep_quotes (parse_command_line
        ("grep ".toList ++ ['"'] ++ "foo bar".toList ++ ['"']))).commands.map
          fun c => c.parts.length) = [3] := by
  decide

/-! ## The interpreter and `vector::at` -/

theorem fix_grep_command_eq_nil (cmd : Command) :
    (fix_grep_command cmd).parts = [] ↔ cmd.parts = [] := by
  unfold fix_grep_command
  split
  · rename_i h
    have h1 : 1 < cmd.parts.length := h.1
    have h2 : cmd.parts ≠ [] := List.length_pos.mp (by omega)
    obtain ⟨x, xs, e⟩ := List.exists_cons_of_ne_nil h2
    rw [e]
    simp
  · rfl

theorem handle_change_directory_some (sys : Sys) (st : Interp) (commands : List Str) :
    ∃ st1, handle_change_directory sys st commands = some st1 := by
  unfold handle_change_directory
  by_cases h : commands.length < 2
  · exact ⟨_, if_pos h⟩
  · rw [if_neg h]
    have h1 : 1 < commands.length := by omega
    rw [List.getElem?_eq_getElem h1]
    simp only
    split
    · exact ⟨_, rfl⟩
    · split <;> exact ⟨_, rfl⟩

/-- The interpreter ends on an uncaught `std::out_of_range` exactly when the
only Command of the expression has no part. -/
theorem execute_expression_out_of_range (sys : Sys) (st : Interp) (fd : Nat × Nat)
    (expression : Expression) :
    (execute_expression sys st fd expression).1 = Outcome.out_of_range
      ↔ ∃ cmd, expression.commands = [cmd] ∧ cmd.parts = [] := by
  unfold execute_expression
  by_cases h0 : expression.commands.length = 0
  · rw [if_pos h0]
    have : expression.commands = [] := List.length_eq_zero.mp h0
    simp [this]
  · rw [if_neg h0]
    simp only
    by_cases h1 : (fix_grep_quotes expression).commands.length > 1
    · rw [if_pos h1]
      have h2 : expression.commands.length > 1 := by
        simpa [fix_grep_quotes] using h1
      constructor
      · intro h
        cases hr : (process_pipeline sys st fd (fix_grep_quotes expression)).1 with
        | none => rw [hr] at h; exact Outcome.noConfusion h
        | some rc => rw [hr] at h; exact Outcome.noConfusion h
      · rintro ⟨cmd, e, _⟩
        rw [e] at h2
        simp at h2
    · rw [if_neg h1]
      have h2 : expression.commands.length = 1 := by
        have : ¬ expression.commands.length > 1 := by simpa [fix_grep_quotes] using h1
        omega
      obtain ⟨cmd, e⟩ := List.length_eq_one.mp h2
      have e1 : (fix_grep_quotes expression).commands = [fix_grep_command cmd] := by
        simp [fix_grep_quotes, e]
      simp only [e1, e, List.getElem?_cons_zero, List.cons.injEq, and_true, exists_eq_left']
      rw [← fix_grep_command_eq_nil cmd]
      cases hp : (fix_grep_command cmd).parts with
      | nil => simp
      | cons name rest =>
        simp only [List.getElem?_cons_zero, List.cons_ne_nil, iff_false]
        by_cases hx : name = kw_exit
        · simp [hx]
        · rw [if_neg hx]
          by_cases hcd : name = kw_cd
          · rw [if_pos hcd]
            obtain ⟨st1, hs⟩ := handle_change_directory_some sys st (name :: rest)
            rw [hcd] at hs
            rw [hcd, hs]
            simp
          · rw [if_neg hcd]
            cases sys.fork 0 with
            | error e => simp
            | ok pid =>
              by_cases hb : (fix_grep_quotes expression).background <;>
                by_cases hw : sys.waitpid pid <;> simp [hb, hw]

/-- C7 fails on a line of spaces: one iteration of the loop of `shell` ends
the interpreter with an uncaught `std::out_of_range` exactly when the line is
one stage made of spaces only, whatever the system calls answer; the line of
one space is such a line, while the empty line returns `EINVAL`. -/
theorem shell_step_out_of_range (sys : Sys) (st : Interp) (fd : Nat × Nat) (line : Str) :
    ((shell_step sys st fd line).1 = Outcome.out_of_range
      ↔ ∃ stage, split_string line '|' = [stage] ∧ ∀ c ∈ stage, c = ' ')
    ∧ (shell_step sys st fd [' ']).1 = Outcome.out_of_range
    ∧ (shell_step sys st fd []).1 = Outcome.returned EINVAL := by
  have key : ∀ l : Str, ((shell_step sys st fd l).1 = Outcome.out_of_range
      ↔ ∃ stage, split_string l '|' = [stage] ∧ ∀ c ∈ stage, c = ' ') := by
    intro l
    unfold shell_step
    rw [execute_expression_out_of_range]
    have hlen := parse_commands_length l
    constructor
    · rintro ⟨cmd, e, hp⟩
      rw [e] at hlen
      obtain ⟨stage, hs⟩ := List.length_eq_one.mp hlen.symm
      refine ⟨stage, hs, ?_⟩
      exact (parse_command_eq_nil l 0 stage cmd (by simp [hs]) (by simp [e])).mp hp
    · rintro ⟨stage, hs, hall⟩
      rw [hs] at hlen
      obtain ⟨cmd, e⟩ := List.length_eq_one.mp hlen
      refine ⟨cmd, e, ?_⟩
      exact (parse_command_eq_nil l 0 stage cmd (by simp [hs]) (by simp [e])).mpr hall
  refine ⟨key line, ?_, ?_⟩
  · exact (key [' ']).mpr ⟨[' '], by decide, by decide⟩
  · rfl

/-! ## The child of a pipeline stage -/

/-- A child whose stage is `cd` or `exit` never replaces its image: it ends
in `exit` with a status (or, when the redirection fails first, with that
`errno`). -/
theorem pipeline_child_builtin (sys : Sys) (expression : Expression) (i previousFd : Nat)
    (fd : Nat × Nat) (c : Child) (cmd : Command) (rest : List Str)
    (hcmd : expression.commands[i]? = some cmd)
    (hname : cmd.parts = kw_cd :: rest ∨ cmd.parts = kw_exit :: rest) :
    ∃ status, pipeline_child sys expression i previousFd fd c = Outcome.exited status := by
  unfold pipeline_child
  simp only [hcmd]
  split
  · exact ⟨_, rfl⟩
  · split
    · exact ⟨_, rfl⟩
    · rcases hname with h | h
      · simp [h]
      · simp [h]

/-- C8 fails when `errno` is 0: on `a | cd` (and on `a | exit`) run from the
start state, the interpreter forks stage 1 with the read end 3 of the pipe,
and the child of stage 1, all of whose calls succeed, ends in `exit(0)`. -/
theorem pipeline_child_builtin_status :
    Event.fork 1 101 3 (3, 4) [0, 1, 2, 3]
      ∈ (process_pipeline posix start (0, 0) (parse_command_line "a | cd".toList)).2.interp.trace
    ∧ pipeline_child posix (parse_command_line "a | cd".toList) 1 3 (3, 4) { errno := 0 }
      = Outcome.exited 0
    ∧ pipeline_child posix (parse_command_line "a | exit".toList) 1 3 (3, 4) { errno := 0 }
      = Outcome.exited 0
    ∧ pipeline_child posix (parse_command_line "cd | a".toList) 0 0 (3, 4) { errno := 0 }
      = Outcome.exited 0 := by
  decide

/-! ## The interpreter's side of `process_pipeline` -/

end Shell
